import Mathlib

/-!
Verification of the contextual spell-check pipeline
(`contextualSpellCheck/contextualSpellCheck.py`).

The Python pipeline is shallowly embedded: spaCy tokens become the `Token`
structure (position index, surface text, trailing whitespace, entity label,
numeric/email/url flags), the spaCy `Doc` with its custom extension attributes
becomes the `Doc` structure, Python dicts become association lists with
explicit first-match lookup, and the BERT inference collaborator is a
parameter `predict : String → List (String × ℚ)` returning the decoded
top-n (candidate string, probability) pairs for a masked query.
`editdistance.eval` is modelled by Mathlib's Levenshtein distance with unit
costs.  Raising `KeyError` is modelled by returning `none`.
-/

/-- A spaCy token, restricted to the attributes the spell checker reads:
`i` (position index), `text` (surface form), `whitespace` (`whitespace_`,
the trailing whitespace), `ent_type` (`ent_type_`, `""` when absent) and the
`like_num` / `like_email` / `like_url` flags. -/
structure Token where
  i : Nat
  text : String
  whitespace : String
  ent_type : String
  like_num : Bool
  like_email : Bool
  like_url : Bool
deriving DecidableEq, Repr

/-- `token.text_with_ws`: surface text followed by trailing whitespace. -/
def Token.text_with_ws (t : Token) : String :=
  t.text ++ t.whitespace

/-- A spaCy `Doc`: the ordered token sequence plus the custom extension
attributes set by `ContextualSpellCheck.__init__` (with their defaults). -/
structure Doc where
  tokens : List Token
  performed_spellCheck : Bool := false
  outcome_spellCheck : String := ""
  score_spellCheck : Option (List (Token × List (String × ℚ))) := none
deriving DecidableEq, Repr

/-- `editdistance.eval`: character-level Levenshtein distance with unit
insert/delete/substitute costs. -/
def editDist (a b : String) : Nat :=
  levenshtein Levenshtein.defaultCost a.toList b.toList

/-- Python's `str.lower()`: lower-case every character. -/
def strLower (s : String) : String :=
  String.mk (s.data.map Char.toLower)

/-- The misspell criterion of `misspellIdentify` (lines 149-155): lower-cased
text absent from the vocabulary, entity type not `"PERSON"`, and none of the
numeric/email/url flags set. -/
def isMisspelled (vocab : List String) (t : Token) : Bool :=
  !vocab.contains (strLower t.text) && t.ent_type != "PERSON" &&
    !t.like_num && !t.like_email && !t.like_url

/-- `misspellIdentify(doc)` (lines 147-161): collect, in document order, the
tokens satisfying the misspell criterion; return them with the (unmodified)
doc. -/
def misspellIdentify (vocab : List String) (doc : Doc) : List Token × Doc :=
  (doc.tokens.filter (isMisspelled vocab), doc)

/-! ### Python dict operations, as association lists

A Python dict is modelled as an association list with pairwise distinct keys;
`dictSet` is `d[k] = v` (overwrite the entry of `k`, or append a fresh one),
`dictGet?` is `d[k]` (`none` models a raised `KeyError`), `dictContains`
is `k in d`. -/

/-- `d[k] = v`: replace the first entry with key `k`, else append. -/
def dictSet {α : Type} (k : Token) (v : α) : List (Token × α) → List (Token × α)
  | [] => [(k, v)]
  | e :: rest => if e.1 = k then (k, v) :: rest else e :: dictSet k v rest

/-- `d[k]` lookup: value of the first entry with key `k`. -/
def dictGet? {α : Type} (k : Token) : List (Token × α) → Option α
  | [] => none
  | e :: rest => if e.1 = k then some e.2 else dictGet? k rest

/-- `k in d`. -/
def dictContains {α : Type} (k : Token) : List (Token × α) → Bool
  | [] => false
  | e :: rest => if e.1 = k then true else dictContains k rest

/-! ### candidateRanking (lines 237-270) -/

/-- The inner loop of `candidateRanking` (lines 262-266): for each candidate,
compute the edit distance to the misspelled token's text; on a strictly
smaller distance than the least seen so far, record the candidate as
`response[misspell]`. -/
def crInner (misspell : Token) :
    List String → Nat → List (Token × String) → List (Token × String)
  | [], _, response => response
  | candidate :: rest, least, response =>
    let d := editDist misspell.text candidate
    if d < least then crInner misspell rest d (dictSet misspell candidate response)
    else crInner misspell rest least response

/-- The outer loop of `candidateRanking` (lines 256-266): per misspelled
token, run the inner loop with `least_edit_dist` initialised to `100`. -/
def crLoop : List (Token × List String) → List (Token × String) → List (Token × String)
  | [], response => response
  | (misspell, candidates) :: rest, response =>
    crLoop rest (crInner misspell candidates 100 response)

/-- `candidateRanking(misspellingsDict)` (lines 237-270): map each misspelled
token to the candidate of least edit distance (strict-improvement tracking,
`least_edit_dist` initialised to `100`), starting from an empty response
dict. -/
def candidateRanking (misspellingsDict : List (Token × List String)) :
    List (Token × String) :=
  crLoop misspellingsDict []

/-- Analysis form of the inner loop: track the least distance and the best
candidate seen so far as a pair instead of writing through the response
dict. -/
def rankAux (orig : String) : List String → Nat → Option String → Nat × Option String
  | [], least, best => (least, best)
  | c :: rest, least, best =>
    let d := editDist orig c
    if d < least then rankAux orig rest d (some c) else rankAux orig rest least best

/-- The replacement `candidateRanking` selects for one token: the candidate
recorded by the loop started at `least_edit_dist = 100` with no candidate
recorded yet. -/
def rankOne (orig : String) (cs : List String) : Option String :=
  (rankAux orig cs 100 none).2

/-! ### candidateGenerator (lines 163-235) -/

/-- Concatenation of the rendering of each token, in order (the shape of the
`updatedQuery += ...` accumulations). -/
def renderTokens (f : Token → String) : List Token → String
  | [] => ""
  | t :: rest => f t ++ renderTokens f rest

/-- The masked query built for one misspelled token (lines 186-191): walk the
doc in order; at the position whose index equals the token's, emit the mask
followed by that position's trailing whitespace; elsewhere emit
`text_with_ws`. -/
def maskedQuery (mask : String) (doc : Doc) (token : Token) : String :=
  doc.tokens.foldl
    (fun acc t =>
      if t.i = token.i then acc ++ mask ++ t.whitespace else acc ++ t.text_with_ws)
    ""

/-- The loop of `candidateGenerator` (lines 185-229): for each misspelled
token not already a key of `response`, record the decoded top-n candidate
strings in `response` and the (string, probability) pairs in `score`.  The
BERT encode/top-k/decode steps are the collaborator `predict`. -/
def cgLoop (mask : String) (predict : String → List (String × ℚ)) (doc : Doc) :
    List Token → List (Token × List String) → List (Token × List (String × ℚ)) →
      List (Token × List String) × List (Token × List (String × ℚ))
  | [], response, score => (response, score)
  | token :: rest, response, score =>
    let preds := predict (maskedQuery mask doc token)
    if dictContains token response then cgLoop mask predict doc rest response score
    else
      cgLoop mask predict doc rest (response ++ [(token, preds.map Prod.fst)])
        (score ++ [(token, preds)])

/-- `candidateGenerator(doc, misspellings)` (lines 163-235): run the loop on
empty dicts; when at least one misspelling was passed, set the doc's
`performed_spellCheck` flag and store the score map (lines 231-233); return
the response dict and the doc. -/
def candidateGenerator (mask : String) (predict : String → List (String × ℚ))
    (doc : Doc) (misspellings : List Token) :
    List (Token × List String) × Doc :=
  let rs := cgLoop mask predict doc misspellings [] []
  if misspellings.length ≠ 0 then
    (rs.1, { doc with performed_spellCheck := true, score_spellCheck := some rs.2 })
  else (rs.1, doc)

/-! ### `__call__` (lines 60-91) -/

/-- The assembly loop of `__call__` (lines 81-86): walk the doc in order; a
token whose index occurs among the misspelled tokens' indices contributes
`answer[i] + i.whitespace_` (`none` when `answer` has no entry for it, i.e.
`KeyError`); any other token contributes `text_with_ws`. -/
def assembleAux (misspellIdx : List Nat) (answer : List (Token × String)) :
    List Token → String → Option String
  | [], acc => some acc
  | t :: rest, acc =>
    if t.i ∈ misspellIdx then
      match dictGet? t answer with
      | some r => assembleAux misspellIdx answer rest (acc ++ r ++ t.whitespace)
      | none => none
    else assembleAux misspellIdx answer rest (acc ++ t.text_with_ws)

/-- `__call__(doc)` (lines 60-91): identify misspellings; when at least one
exists, generate candidates, rank them, assemble the corrected text and store
it as `outcome_spellCheck`.  The second component records whether
`candidateGenerator` (and hence the inference collaborator) was invoked;
`none` models a `KeyError` escaping the call. -/
def callPipeline (vocab : List String) (mask : String)
    (predict : String → List (String × ℚ)) (doc : Doc) : Option (Doc × Bool) :=
  let mi := misspellIdentify vocab doc
  if mi.1.length > 0 then
    let cg := candidateGenerator mask predict mi.2 mi.1
    let answer := candidateRanking cg.1
    match assembleAux (mi.1.map Token.i) answer cg.2.tokens "" with
    | some updatedQuery => some ({ cg.2 with outcome_spellCheck := updatedQuery }, true)
    | none => none
  else some (mi.2, false)

/-! ### `check` (lines 93-125) -/

/-- A Python value passed as `check`'s `query` argument: either a `str`, or a
non-`str` value exposing only a length. -/
inductive PyQuery where
  | str (s : String)
  | other (len : Nat)
deriving DecidableEq, Repr

/-- The guard of `check` (line 102), exactly as written:
`type(query) != str and len(query) == 0`. -/
def checkGuard : PyQuery → Bool
  | .str _ => false
  | .other len => len == 0

/-- Outcome of `check`: the invalid-input tuple return (line 103), a normal
`(updatedQuery, doc)` return, a `KeyError` from the assembly loop, or the
`TypeError` the tokenizer raises on a non-`str` argument. -/
inductive CheckResult where
  | invalid (msg : String)
  | ok (updatedQuery : String) (doc : Doc)
  | keyError
  | typeError
deriving DecidableEq, Repr

/-- The assembly loop of `check` (lines 114-118); unlike `__call__` it tests
`i in misspellTokens` by token value rather than by index. -/
def checkAssembleAux (misspellTokens : List Token) (answer : List (Token × String)) :
    List Token → String → Option String
  | [], acc => some acc
  | t :: rest, acc =>
    if t ∈ misspellTokens then
      match dictGet? t answer with
      | some r => checkAssembleAux misspellTokens answer rest (acc ++ r ++ t.whitespace)
      | none => none
    else checkAssembleAux misspellTokens answer rest (acc ++ t.text_with_ws)

/-- `check(query)` (lines 93-125): return the invalid-input tuple when the
guard fires; otherwise tokenize the query (`nlp`), run identification and —
when misspellings exist — generation, ranking and assembly.  The second
component records whether the guard was passed and a run attempted
(tokenization and identification executed). -/
def check (vocab : List String) (mask : String)
    (predict : String → List (String × ℚ)) (nlp : String → Doc) (q : PyQuery) :
    CheckResult × Bool :=
  if checkGuard q then
    (.invalid "Invalid query, expected non empty `str` but passed", false)
  else
    match q with
    | .str s =>
      let mi := misspellIdentify vocab (nlp s)
      if mi.1.length > 0 then
        let cg := candidateGenerator mask predict mi.2 mi.1
        let answer := candidateRanking cg.1
        match checkAssembleAux mi.1 answer cg.2.tokens "" with
        | some updatedQuery =>
          (.ok updatedQuery { cg.2 with outcome_spellCheck := updatedQuery }, true)
        | none => (.keyError, true)
      else (.ok "" mi.2, true)
    | .other _ => (.typeError, true)

/-! ### `doc_suggestions_spellCheck` (lines 355-372) -/

/-- The loop of `doc_suggestions_spellCheck` (lines 367-371): for each entry
of the score map, create an empty list for the token when absent, then append
the first component of every (suggestion, score) pair. -/
def suggestionsLoop :
    List (Token × List (String × ℚ)) → List (Token × List String) →
      List (Token × List String)
  | [], response => response
  | (token, pairs) :: rest, response =>
    let response' := if dictContains token response then response
      else response ++ [(token, [])]
    suggestionsLoop rest
      (pairs.foldl (fun r p =>
        match dictGet? token r with
        | some l => dictSet token (l ++ [p.1]) r
        | none => r) response')

/-- `doc_suggestions_spellCheck(doc)` (lines 355-372): empty when the score
map is unset; otherwise the score map with each (string, probability) pair
reduced to its string. -/
def doc_suggestions_spellCheck (doc : Doc) : List (Token × List String) :=
  match doc.score_spellCheck with
  | none => []
  | some score => suggestionsLoop score []

/-! ### Concrete inputs used in witnesses and counterexamples -/

/-- A token with a given index, text and trailing whitespace, no entity label
and no flags set. -/
def mkTok (i : Nat) (text ws : String) : Token :=
  { i := i, text := text, whitespace := ws, ent_type := "", like_num := false,
    like_email := false, like_url := false }

/-- A candidate string of length 100, whose edit distance from the empty
string is exactly 100. -/
def longCand : String := String.mk (List.replicate 100 'a')

/-- A one-token document whose token is out of vocabulary. -/
def docZ : Doc := { tokens := [mkTok 0 "zzzz" ""] }

/-- An empty document, as the tokenizer produces for the empty string. -/
def emptyDoc : Doc := { tokens := [] }

/-! ## Helper lemmas -/

theorem string_append_empty (s : String) : s ++ "" = s := by
  cases s with
  | mk data => show String.mk (data ++ []) = String.mk data; rw [List.append_nil]

theorem string_append_assoc (a b c : String) : a ++ b ++ c = a ++ (b ++ c) := by
  cases a with
  | mk da =>
    cases b with
    | mk db =>
      cases c with
      | mk dc => show String.mk (da ++ db ++ dc) = String.mk (da ++ (db ++ dc))
                 rw [List.append_assoc]

theorem renderTokens_append (f : Token → String) (l₁ l₂ : List Token) :
    renderTokens f (l₁ ++ l₂) = renderTokens f l₁ ++ renderTokens f l₂ := by
  induction l₁ with
  | nil =>
    show renderTokens f l₂ = "" ++ renderTokens f l₂
    cases renderTokens f l₂ with
    | mk d => show String.mk d = String.mk ([] ++ d); rw [List.nil_append]
  | cons t rest ih =>
    show f t ++ renderTokens f (rest ++ l₂) = f t ++ renderTokens f rest ++ renderTokens f l₂
    rw [ih, string_append_assoc]

theorem foldl_render (f : Token → String) (l : List Token) :
    ∀ s : String, l.foldl (fun acc t => acc ++ f t) s = s ++ renderTokens f l := by
  induction l with
  | nil => intro s; simp [renderTokens, string_append_empty]
  | cons t rest ih =>
    intro s
    show rest.foldl (fun acc t => acc ++ f t) (s ++ f t) = s ++ (f t ++ renderTokens f rest)
    rw [ih, string_append_assoc]

/-- **C2.** A token of the document is in `misspellIdentify`'s output iff its
lower-cased text is absent from the vocabulary, its entity label is not
`"PERSON"`, and it is not numeric-like, email-like or url-like; the output is
an ordered subsequence of the input token sequence, and the doc is returned
unchanged (no side effects). -/
theorem misspellIdentify_classification (vocab : List String) (doc : Doc) :
    (∀ t : Token, t ∈ (misspellIdentify vocab doc).1 ↔
      (t ∈ doc.tokens ∧ strLower t.text ∉ vocab ∧ t.ent_type ≠ "PERSON" ∧
        t.like_num = false ∧ t.like_email = false ∧ t.like_url = false)) ∧
    (misspellIdentify vocab doc).1.Sublist doc.tokens ∧
    (misspellIdentify vocab doc).2 = doc := by
  refine ⟨fun t => ?_, List.filter_sublist _, rfl⟩
  simp [misspellIdentify, List.mem_filter, isMisspelled, List.elem_iff,
    and_assoc]

theorem dictSet_mem {α : Type} (k : Token) (v : α) (l : List (Token × α))
    (e : Token × α) (h : e ∈ dictSet k v l) : e = (k, v) ∨ e ∈ l := by
  induction l with
  | nil => simp [dictSet] at h; simp [h]
  | cons hd rest ih =>
    by_cases hk : hd.1 = k
    · simp only [dictSet, if_pos hk] at h
      rcases List.mem_cons.mp h with h | h
      · exact Or.inl h
      · exact Or.inr (List.mem_cons_of_mem _ h)
    · simp only [dictSet, if_neg hk] at h
      rcases List.mem_cons.mp h with h | h
      · exact Or.inr (h ▸ List.mem_cons_self _ _)
      · rcases ih h with h | h
        · exact Or.inl h
        · exact Or.inr (List.mem_cons_of_mem _ h)

theorem dictSet_dictSet {α : Type} (k : Token) (v v' : α) (l : List (Token × α)) :
    dictSet k v' (dictSet k v l) = dictSet k v' l := by
  induction l with
  | nil => simp [dictSet]
  | cons hd rest ih =>
    by_cases hk : hd.1 = k
    · simp [dictSet, hk]
    · simp [dictSet, hk, ih]

theorem dictSet_fresh {α : Type} (k : Token) (v : α) (l : List (Token × α))
    (h : k ∉ l.map Prod.fst) : dictSet k v l = l ++ [(k, v)] := by
  induction l with
  | nil => simp [dictSet]
  | cons hd rest ih =>
    simp only [List.map_cons, List.mem_cons, not_or] at h
    have hne : ¬hd.1 = k := fun he => h.1 he.symm
    simp [dictSet, hne, ih h.2]

theorem dictContains_iff {α : Type} (k : Token) (l : List (Token × α)) :
    dictContains k l = true ↔ k ∈ l.map Prod.fst := by
  induction l with
  | nil => simp [dictContains]
  | cons hd rest ih =>
    by_cases hk : hd.1 = k
    · simp [dictContains, hk]
    · simp only [dictContains, if_neg hk, List.map_cons, List.mem_cons, ih]
      exact ⟨Or.inr, fun h => h.elim (fun he => absurd he.symm hk) id⟩

theorem dictGet?_eq_none {α : Type} (k : Token) (l : List (Token × α)) :
    dictGet? k l = none ↔ k ∉ l.map Prod.fst := by
  induction l with
  | nil => simp [dictGet?]
  | cons hd rest ih =>
    by_cases hk : hd.1 = k
    · simp [dictGet?, hk]
    · simp only [dictGet?, if_neg hk, List.map_cons, List.mem_cons, ih]
      constructor
      · rintro h (he | hm)
        · exact hk he.symm
        · exact h hm
      · intro h hm; exact h (Or.inr hm)

theorem nodupKeys_eq_of_mem {α : Type} (m : List (Token × α)) (t : Token) (a b : α)
    (hn : (m.map Prod.fst).Nodup) (ha : (t, a) ∈ m) (hb : (t, b) ∈ m) : a = b := by
  induction m with
  | nil => cases ha
  | cons hd rest ih =>
    obtain ⟨k0, v0⟩ := hd
    simp only [List.map_cons, List.nodup_cons] at hn
    rcases List.mem_cons.mp ha with ha' | ha' <;> rcases List.mem_cons.mp hb with hb' | hb'
    · injection ha' with h1 h2; injection hb' with h3 h4; rw [h2, h4]
    · injection ha' with h1 h2; subst h1
      exact absurd (List.mem_map_of_mem Prod.fst hb') hn.1
    · injection hb' with h3 h4; subst h3
      exact absurd (List.mem_map_of_mem Prod.fst ha') hn.1
    · exact ih hn.2 ha' hb'

theorem rankAux_nil (orig : String) (least : Nat) (best : Option String) :
    rankAux orig [] least best = (least, best) := rfl

theorem rankAux_cons (orig c : String) (rest : List String) (least : Nat)
    (best : Option String) :
    rankAux orig (c :: rest) least best =
      if editDist orig c < least then rankAux orig rest (editDist orig c) (some c)
      else rankAux orig rest least best := rfl

theorem crInner_cons (misspell : Token) (candidate : String) (rest : List String)
    (least : Nat) (response : List (Token × String)) :
    crInner misspell (candidate :: rest) least response =
      if editDist misspell.text candidate < least then
        crInner misspell rest (editDist misspell.text candidate)
          (dictSet misspell candidate response)
      else crInner misspell rest least response := rfl

theorem rankAux_isSome (orig : String) (cs : List String) :
    ∀ (least : Nat) (b : String), ((rankAux orig cs least (some b)).2).isSome = true := by
  induction cs with
  | nil => intro least b; rfl
  | cons c rest ih =>
    intro least b
    rw [rankAux_cons]
    by_cases h : editDist orig c < least
    · rw [if_pos h]; exact ih _ _
    · rw [if_neg h]; exact ih _ _

theorem rankAux_some_init (orig : String) (cs : List String) :
    ∀ (least : Nat) (b : String),
      (rankAux orig cs least (some b)).2 =
        match (rankAux orig cs least none).2 with
        | some r => some r
        | none => some b := by
  induction cs with
  | nil => intro least b; rfl
  | cons c rest ih =>
    intro least b
    rw [rankAux_cons, rankAux_cons]
    by_cases h : editDist orig c < least
    · simp only [if_pos h]
      cases hs : (rankAux orig rest (editDist orig c) (some c)).2 with
      | none =>
        have := rankAux_isSome orig rest (editDist orig c) c
        rw [hs] at this; cases this
      | some r => simp [hs]
    · simp only [if_neg h]; exact ih least b

theorem crInner_eq_rankAux (misspell : Token) (cs : List String) :
    ∀ (least : Nat) (response : List (Token × String)),
      crInner misspell cs least response =
        match (rankAux misspell.text cs least none).2 with
        | some b => dictSet misspell b response
        | none => response := by
  induction cs with
  | nil => intro least response; rfl
  | cons c rest ih =>
    intro least response
    rw [crInner_cons, rankAux_cons]
    by_cases h : editDist misspell.text c < least
    · simp only [if_pos h]
      rw [ih, rankAux_some_init]
      cases hs : (rankAux misspell.text rest (editDist misspell.text c) none).2 with
      | none => simp
      | some r => simp [dictSet_dictSet]
    · simp only [if_neg h]; exact ih least response

theorem rankAux_none_iff (orig : String) (cs : List String) :
    ∀ least : Nat,
      ((rankAux orig cs least none).2 = none ↔ ∀ c ∈ cs, least ≤ editDist orig c) := by
  induction cs with
  | nil => intro least; simp [rankAux_nil]
  | cons c rest ih =>
    intro least
    rw [rankAux_cons]
    by_cases h : editDist orig c < least
    · simp only [if_pos h]
      constructor
      · intro hn
        have := rankAux_isSome orig rest (editDist orig c) c
        rw [hn] at this; cases this
      · intro hall
        exact absurd (hall c (List.mem_cons_self c rest)) (Nat.not_le.mpr h)
    · simp only [if_neg h]
      rw [ih]
      constructor
      · intro hall c' hc'
        rcases List.mem_cons.mp hc' with rfl | hc'
        · exact Nat.le_of_not_lt h
        · exact hall c' hc'
      · intro hall c' hc'; exact hall c' (List.mem_cons_of_mem _ hc')

theorem rankAux_inv (orig : String) (cs : List String) :
    ∀ b r : String,
      (rankAux orig cs (editDist orig b) (some b)).2 = some r →
      (r = b ∧ ∀ c ∈ cs, editDist orig b ≤ editDist orig c) ∨
      (editDist orig r < editDist orig b ∧
        ∃ pre post, cs = pre ++ r :: post ∧
          (∀ c ∈ pre, editDist orig r < editDist orig c) ∧
          (∀ c ∈ post, editDist orig r ≤ editDist orig c)) := by
  induction cs with
  | nil =>
    intro b r h
    rw [rankAux_nil] at h
    injection h with h
    exact Or.inl ⟨h.symm, by simp⟩
  | cons c rest ih =>
    intro b r h
    rw [rankAux_cons] at h
    by_cases hd : editDist orig c < editDist orig b
    · rw [if_pos hd] at h
      rcases ih c r h with ⟨rfl, hall⟩ | ⟨hlt, pre, post, hsplit, hpre, hpost⟩
      · exact Or.inr ⟨hd, [], rest, rfl, by simp, hall⟩
      · refine Or.inr ⟨Nat.lt_trans hlt hd, c :: pre, post, by simp [hsplit], ?_, hpost⟩
        intro c' hc'
        rcases List.mem_cons.mp hc' with rfl | hc'
        · exact hlt
        · exact hpre c' hc'
    · rw [if_neg hd] at h
      rcases ih b r h with ⟨rfl, hall⟩ | ⟨hlt, pre, post, hsplit, hpre, hpost⟩
      · refine Or.inl ⟨rfl, ?_⟩
        intro c' hc'
        rcases List.mem_cons.mp hc' with rfl | hc'
        · exact Nat.le_of_not_lt hd
        · exact hall c' hc'
      · refine Or.inr ⟨hlt, c :: pre, post, by simp [hsplit], ?_, hpost⟩
        intro c' hc'
        rcases List.mem_cons.mp hc' with rfl | hc'
        · exact Nat.lt_of_lt_of_le hlt (Nat.le_of_not_lt hd)
        · exact hpre c' hc'

theorem rankAux_some_spec (orig : String) (cs : List String) :
    ∀ (least : Nat) (r : String),
      (rankAux orig cs least none).2 = some r →
      editDist orig r < least ∧
      ∃ pre post, cs = pre ++ r :: post ∧
        (∀ c ∈ pre, editDist orig r < editDist orig c) ∧
        (∀ c ∈ post, editDist orig r ≤ editDist orig c) := by
  induction cs with
  | nil => intro least r h; rw [rankAux_nil] at h; cases h
  | cons c rest ih =>
    intro least r h
    rw [rankAux_cons] at h
    by_cases hd : editDist orig c < least
    · rw [if_pos hd] at h
      rcases rankAux_inv orig rest c r h with ⟨rfl, hall⟩ | ⟨hlt, pre, post, hsplit, hpre, hpost⟩
      · exact ⟨hd, [], rest, rfl, by simp, hall⟩
      · refine ⟨Nat.lt_trans hlt hd, c :: pre, post, by simp [hsplit], ?_, hpost⟩
        intro c' hc'
        rcases List.mem_cons.mp hc' with rfl | hc'
        · exact hlt
        · exact hpre c' hc'
    · rw [if_neg hd] at h
      rcases ih least r h with ⟨hlt, pre, post, hsplit, hpre, hpost⟩
      refine ⟨hlt, c :: pre, post, by simp [hsplit], ?_, hpost⟩
      intro c' hc'
      rcases List.mem_cons.mp hc' with rfl | hc'
      · exact Nat.lt_of_lt_of_le hlt (Nat.le_of_not_lt hd)
      · exact hpre c' hc'

theorem crLoop_cons (misspell : Token) (candidates : List String)
    (rest : List (Token × List String)) (response : List (Token × String)) :
    crLoop ((misspell, candidates) :: rest) response =
      crLoop rest (crInner misspell candidates 100 response) := rfl

theorem crLoop_editDist_inv :
    ∀ (m : List (Token × List String)) (response : List (Token × String)),
      (∀ e ∈ response, editDist e.1.text e.2 < 100) →
      ∀ e ∈ crLoop m response, editDist e.1.text e.2 < 100 := by
  intro m
  induction m with
  | nil => intro response h e he; exact h e he
  | cons hd rest ih =>
    obtain ⟨ms, cs⟩ := hd
    intro response h e he
    rw [crLoop_cons] at he
    refine ih _ ?_ e he
    intro e' he'
    rw [crInner_eq_rankAux] at he'
    cases hs : (rankAux ms.text cs 100 none).2 with
    | none => rw [hs] at he'; exact h e' he'
    | some b =>
      rw [hs] at he'
      rcases dictSet_mem ms b response e' he' with rfl | he''
      · exact (rankAux_some_spec ms.text cs 100 b hs).1
      · exact h e' he''

theorem crLoop_eq_filterMap :
    ∀ (m : List (Token × List String)) (response : List (Token × String)),
      (m.map Prod.fst).Nodup →
      (∀ k ∈ m.map Prod.fst, k ∉ response.map Prod.fst) →
      crLoop m response =
        response ++
          m.filterMap (fun e => (rankOne e.1.text e.2).map (fun b => (e.1, b))) := by
  intro m
  induction m with
  | nil => intro response _ _; simp [crLoop]
  | cons hd rest ih =>
    obtain ⟨ms, cs⟩ := hd
    intro response hn hdisj
    simp only [List.map_cons, List.nodup_cons] at hn
    have hfresh : ms ∉ response.map Prod.fst := hdisj ms (by simp)
    rw [crLoop_cons, crInner_eq_rankAux]
    cases hs : (rankAux ms.text cs 100 none).2 with
    | none =>
      dsimp only
      have hdisj' : ∀ k ∈ rest.map Prod.fst, k ∉ response.map Prod.fst :=
        fun k hk => hdisj k (by simp [hk])
      rw [ih response hn.2 hdisj']
      simp [List.filterMap_cons, rankOne, hs]
    | some b =>
      dsimp only
      have hdisj' : ∀ k ∈ rest.map Prod.fst, k ∉ (response ++ [(ms, b)]).map Prod.fst := by
        intro k hk
        simp only [List.map_append, List.mem_append]
        rintro (h1 | h2)
        · exact hdisj k (by simp [hk]) h1
        · simp only [List.map_cons, List.map_nil, List.mem_singleton] at h2
          subst h2; exact hn.1 hk
      rw [dictSet_fresh ms b response hfresh, ih (response ++ [(ms, b)]) hn.2 hdisj']
      simp [List.filterMap_cons, rankOne, hs]

theorem candidateRanking_eq_filterMap (m : List (Token × List String))
    (hn : (m.map Prod.fst).Nodup) :
    candidateRanking m =
      m.filterMap (fun e => (rankOne e.1.text e.2).map (fun b => (e.1, b))) := by
  have h := crLoop_eq_filterMap m [] hn (by simp)
  simpa [candidateRanking] using h

/-- **C1.** Every entry of `candidateRanking`'s result maps a token to a
replacement drawn from that token's own candidate list, achieving the minimum
edit distance to the token's surface text over the whole list; every
candidate strictly earlier in the list (higher model probability) has a
strictly larger edit distance, so ties on the minimum go to the earlier
candidate. -/
theorem candidateRanking_min_tiebreak (m : List (Token × List String))
    (t : Token) (cs : List String) (r : String)
    (hn : (m.map Prod.fst).Nodup) (hm : (t, cs) ∈ m)
    (hr : (t, r) ∈ candidateRanking m) :
    r ∈ cs ∧ (∀ c ∈ cs, editDist t.text r ≤ editDist t.text c) ∧
      ∃ pre post, cs = pre ++ r :: post ∧
        (∀ c ∈ pre, editDist t.text r < editDist t.text c) := by
  rw [candidateRanking_eq_filterMap m hn] at hr
  rcases List.mem_filterMap.mp hr with ⟨e, hem, he⟩
  obtain ⟨t', cs'⟩ := e
  rcases Option.map_eq_some'.mp he with ⟨b, hb, heq⟩
  injection heq with h1 h2
  subst h1; subst h2
  have hcs : cs' = cs := nodupKeys_eq_of_mem m t' cs' cs hn hem hm
  subst hcs
  rcases rankAux_some_spec t'.text cs' 100 b hb with ⟨_, pre, post, hsplit, hpre, hpost⟩
  refine ⟨by rw [hsplit]; exact List.mem_append_right _ (List.mem_cons_self _ _),
    ?_, pre, post, hsplit, hpre⟩
  intro c hc
  rw [hsplit] at hc
  rcases List.mem_append.mp hc with hc | hc
  · exact Nat.le_of_lt (hpre c hc)
  · rcases List.mem_cons.mp hc with rfl | hc
    · exact Nat.le_refl _
    · exact hpost c hc

/-- Witness for `candidateRanking_min_tiebreak` at a concrete dict. -/
theorem candidateRanking_min_tiebreak_witness :
    (([(mkTok 0 "ab" " ", ["ab", "ax"])].map Prod.fst).Nodup ∧
      (mkTok 0 "ab" " ", ["ab", "ax"]) ∈ [(mkTok 0 "ab" " ", ["ab", "ax"])] ∧
      (mkTok 0 "ab" " ", "ab") ∈ candidateRanking [(mkTok 0 "ab" " ", ["ab", "ax"])]) ∧
    ("ab" ∈ ["ab", "ax"] ∧
      (∀ c ∈ ["ab", "ax"],
        editDist (mkTok 0 "ab" " ").text "ab" ≤ editDist (mkTok 0 "ab" " ").text c) ∧
      ∃ pre post, ["ab", "ax"] = pre ++ "ab" :: post ∧
        (∀ c ∈ pre, editDist (mkTok 0 "ab" " ").text "ab" < editDist (mkTok 0 "ab" " ").text c)) :=
  ⟨⟨by decide, by decide, by decide⟩,
    candidateRanking_min_tiebreak [(mkTok 0 "ab" " ", ["ab", "ax"])]
      (mkTok 0 "ab" " ") ["ab", "ax"] "ab" (by decide) (by decide) (by decide)⟩

/-- **C10.** Every replacement emitted by `candidateRanking` lies at edit
distance strictly less than 100 from the token's surface text: the least
distance is initialised to 100 and a candidate is recorded only on a strictly
smaller distance. -/
theorem candidateRanking_editDist_lt_100 (m : List (Token × List String))
    (t : Token) (r : String) (hr : (t, r) ∈ candidateRanking m) :
    editDist t.text r < 100 :=
  crLoop_editDist_inv m [] (by simp) (t, r) hr

/-- Witness for `candidateRanking_editDist_lt_100` at a concrete dict. -/
theorem candidateRanking_editDist_lt_100_witness :
    ((mkTok 0 "ab" " ", "ax") ∈ candidateRanking [(mkTok 0 "ab" " ", ["ax"])]) ∧
    editDist (mkTok 0 "ab" " ").text "ax" < 100 :=
  ⟨by decide,
    candidateRanking_editDist_lt_100 [(mkTok 0 "ab" " ", ["ax"])]
      (mkTok 0 "ab" " ") "ax" (by decide)⟩

/-- **C4 counterexample.** A token whose candidate list is non-empty but whose
sole candidate lies at edit distance 100 from the original text receives no
entry in `candidateRanking`'s result, so the result's domain is strictly
smaller than the set of tokens with a non-empty candidate list. -/
theorem candidateRanking_omits_nonempty_list :
    candidateRanking [(mkTok 0 "" "", [longCand])] = [] ∧
      [longCand] ≠ ([] : List String) := by
  constructor
  · decide
  · decide

/-- **C4 (amended).** Under distinct dict keys, a token with an entry in the
score map receives a replacement iff some candidate of its list lies at edit
distance strictly below 100 from its surface text (in particular a token with
an empty candidate list is always omitted), and every key of the result is a
key of the input dict. -/
theorem candidateRanking_domain (m : List (Token × List String))
    (t : Token) (cs : List String)
    (hn : (m.map Prod.fst).Nodup) (hm : (t, cs) ∈ m) :
    ((∃ r, (t, r) ∈ candidateRanking m) ↔ ∃ c ∈ cs, editDist t.text c < 100) ∧
      ∀ (t' : Token) (r : String), (t', r) ∈ candidateRanking m →
        ∃ cs', (t', cs') ∈ m := by
  rw [candidateRanking_eq_filterMap m hn]
  constructor
  · constructor
    · rintro ⟨r, hr⟩
      rcases List.mem_filterMap.mp hr with ⟨e, hem, he⟩
      obtain ⟨t', cs'⟩ := e
      rcases Option.map_eq_some'.mp he with ⟨b, hb, heq⟩
      injection heq with h1 h2
      subst h1; subst h2
      have hcs : cs' = cs := nodupKeys_eq_of_mem m t' cs' cs hn hem hm
      subst hcs
      rcases rankAux_some_spec t'.text cs' 100 b hb with ⟨hlt, pre, post, hsplit, _, _⟩
      exact ⟨b, by rw [hsplit]; exact List.mem_append_right _ (List.mem_cons_self _ _), hlt⟩
    · rintro ⟨c, hc, hlt⟩
      cases hs : rankOne t.text cs with
      | none =>
        rw [rankOne] at hs
        exact absurd hlt (Nat.not_lt.mpr ((rankAux_none_iff t.text cs 100).mp hs c hc))
      | some b =>
        refine ⟨b, List.mem_filterMap.mpr ⟨(t, cs), hm, ?_⟩⟩
        simp [hs]
  · intro t' r hr
    rcases List.mem_filterMap.mp hr with ⟨e, hem, he⟩
    obtain ⟨t0, cs0⟩ := e
    rcases Option.map_eq_some'.mp he with ⟨b, hb, heq⟩
    injection heq with h1 h2
    subst h1
    exact ⟨cs0, hem⟩

/-- Witness for `candidateRanking_domain` at a concrete dict. -/
theorem candidateRanking_domain_witness :
    (([(mkTok 1 "cd" "", ["cx"])].map Prod.fst).Nodup ∧
      (mkTok 1 "cd" "", ["cx"]) ∈ [(mkTok 1 "cd" "", ["cx"])]) ∧
    (((∃ r, (mkTok 1 "cd" "", r) ∈ candidateRanking [(mkTok 1 "cd" "", ["cx"])]) ↔
        ∃ c ∈ ["cx"], editDist (mkTok 1 "cd" "").text c < 100) ∧
      ∀ (t' : Token) (r : String),
        (t', r) ∈ candidateRanking [(mkTok 1 "cd" "", ["cx"])] →
          ∃ cs', (t', cs') ∈ [(mkTok 1 "cd" "", ["cx"])]) :=
  ⟨⟨by decide, by decide⟩,
    candidateRanking_domain [(mkTok 1 "cd" "", ["cx"])] (mkTok 1 "cd" "") ["cx"]
      (by decide) (by decide)⟩

theorem string_empty_append (s : String) : "" ++ s = s := by
  cases s with
  | mk d => show String.mk ([] ++ d) = String.mk d; rw [List.nil_append]

theorem renderTokens_congr (f g : Token → String) (l : List Token)
    (h : ∀ t ∈ l, f t = g t) : renderTokens f l = renderTokens g l := by
  induction l with
  | nil => rfl
  | cons t rest ih =>
    show f t ++ renderTokens f rest = g t ++ renderTokens g rest
    rw [h t (List.mem_cons_self t rest), ih fun t' ht' => h t' (List.mem_cons_of_mem t ht')]

theorem maskedQuery_eq_render (mask : String) (doc : Doc) (token : Token) :
    maskedQuery mask doc token =
      renderTokens
        (fun t => if t.i = token.i then mask ++ t.whitespace else t.text_with_ws)
        doc.tokens := by
  have hbody : (fun (acc : String) (t : Token) =>
      if t.i = token.i then acc ++ mask ++ t.whitespace else acc ++ t.text_with_ws) =
      fun acc t =>
        acc ++ if t.i = token.i then mask ++ t.whitespace else t.text_with_ws := by
    funext acc t
    by_cases h : t.i = token.i
    · simp [h, string_append_assoc]
    · simp [h]
  rw [maskedQuery, hbody, foldl_render, string_empty_append]

/-- **C5.** The masked query built for a misspelled token of a document with
pairwise distinct token indices renders every token before and after the
masked one by its original text with its original trailing whitespace, and
renders exactly the one position bearing the token's index as the mask
placeholder followed by that token's trailing whitespace. -/
theorem maskedQuery_single_mask (mask : String) (doc : Doc) (token : Token)
    (hmem : token ∈ doc.tokens) (hnd : (doc.tokens.map Token.i).Nodup) :
    ∃ pre post, doc.tokens = pre ++ token :: post ∧
      maskedQuery mask doc token =
        renderTokens Token.text_with_ws pre ++ (mask ++ token.whitespace) ++
          renderTokens Token.text_with_ws post ∧
      (∀ t ∈ pre, t.i ≠ token.i) ∧ (∀ t ∈ post, t.i ≠ token.i) := by
  rcases List.append_of_mem hmem with ⟨pre, post, hsplit⟩
  rw [hsplit] at hnd
  rw [List.map_append, List.map_cons, List.nodup_append] at hnd
  rcases hnd with ⟨hpre, hpost, hdisj⟩
  rw [List.nodup_cons] at hpost
  have hpre' : ∀ t ∈ pre, t.i ≠ token.i := by
    intro t ht he
    exact hdisj (List.mem_map_of_mem Token.i ht) (he ▸ List.mem_cons_self _ _)
  have hpost' : ∀ t ∈ post, t.i ≠ token.i := by
    intro t ht he
    exact hpost.1 (he ▸ List.mem_map_of_mem Token.i ht)
  refine ⟨pre, post, hsplit, ?_, hpre', hpost'⟩
  rw [maskedQuery_eq_render, hsplit, renderTokens_append]
  have hmid : renderTokens
      (fun t => if t.i = token.i then mask ++ t.whitespace else t.text_with_ws)
      (token :: post) =
      (mask ++ token.whitespace) ++ renderTokens Token.text_with_ws post := by
    show (if token.i = token.i then mask ++ token.whitespace else token.text_with_ws) ++ _ = _
    rw [if_pos rfl]
    congr 1
    exact renderTokens_congr _ _ post fun t ht => if_neg (hpost' t ht)
  rw [hmid, renderTokens_congr _ Token.text_with_ws pre fun t ht => if_neg (hpre' t ht),
    string_append_assoc (renderTokens Token.text_with_ws pre) (mask ++ token.whitespace)
      (renderTokens Token.text_with_ws post),
    string_append_assoc mask token.whitespace (renderTokens Token.text_with_ws post)]

/-- Witness for `maskedQuery_single_mask` at a concrete document. -/
theorem maskedQuery_single_mask_witness :
    (mkTok 1 "wrld" " " ∈ ({ tokens := [mkTok 0 "the" " ", mkTok 1 "wrld" " "] } : Doc).tokens ∧
      (({ tokens := [mkTok 0 "the" " ", mkTok 1 "wrld" " "] } : Doc).tokens.map Token.i).Nodup) ∧
    (∃ pre post,
      ({ tokens := [mkTok 0 "the" " ", mkTok 1 "wrld" " "] } : Doc).tokens =
        pre ++ mkTok 1 "wrld" " " :: post ∧
      maskedQuery "[MASK]" { tokens := [mkTok 0 "the" " ", mkTok 1 "wrld" " "] }
          (mkTok 1 "wrld" " ") =
        renderTokens Token.text_with_ws pre ++
          ("[MASK]" ++ (mkTok 1 "wrld" " ").whitespace) ++
          renderTokens Token.text_with_ws post ∧
      (∀ t ∈ pre, t.i ≠ (mkTok 1 "wrld" " ").i) ∧
      (∀ t ∈ post, t.i ≠ (mkTok 1 "wrld" " ").i)) :=
  ⟨⟨by decide, by decide⟩,
    maskedQuery_single_mask "[MASK]" { tokens := [mkTok 0 "the" " ", mkTok 1 "wrld" " "] }
      (mkTok 1 "wrld" " ") (by decide) (by decide)⟩

theorem assembleAux_cons (misspellIdx : List Nat) (answer : List (Token × String))
    (t : Token) (rest : List Token) (acc : String) :
    assembleAux misspellIdx answer (t :: rest) acc =
      if t.i ∈ misspellIdx then
        match dictGet? t answer with
        | some r => assembleAux misspellIdx answer rest (acc ++ r ++ t.whitespace)
        | none => none
      else assembleAux misspellIdx answer rest (acc ++ t.text_with_ws) := rfl

theorem assembleAux_spec (misspellIdx : List Nat) (answer : List (Token × String)) :
    ∀ (tokens : List Token) (acc : String),
      (∀ t ∈ tokens, t.i ∈ misspellIdx → (dictGet? t answer).isSome = true) →
      assembleAux misspellIdx answer tokens acc =
        some (acc ++ renderTokens
          (fun t => if t.i ∈ misspellIdx then (dictGet? t answer).getD "" ++ t.whitespace
            else t.text_with_ws) tokens) := by
  intro tokens
  induction tokens with
  | nil => intro acc _; show some acc = _; rw [renderTokens, string_append_empty]
  | cons t rest ih =>
    intro acc hcov
    rw [assembleAux_cons]
    by_cases h : t.i ∈ misspellIdx
    · rcases Option.isSome_iff_exists.mp (hcov t (List.mem_cons_self t rest) h) with ⟨r, hr⟩
      rw [if_pos h, hr]
      show assembleAux misspellIdx answer rest (acc ++ r ++ t.whitespace) = _
      rw [ih _ fun t' ht' => hcov t' (List.mem_cons_of_mem t ht')]
      show _ = some (acc ++ ((if t.i ∈ misspellIdx then (dictGet? t answer).getD "" ++ t.whitespace
        else t.text_with_ws) ++ _))
      rw [if_pos h, hr]
      rw [string_append_assoc acc r t.whitespace,
        string_append_assoc acc (r ++ t.whitespace) _,
        string_append_assoc r t.whitespace _,
        ← string_append_assoc r t.whitespace _]
      rfl
    · rw [if_neg h, ih _ fun t' ht' => hcov t' (List.mem_cons_of_mem t ht')]
      show _ = some (acc ++ ((if t.i ∈ misspellIdx then (dictGet? t answer).getD "" ++ t.whitespace
        else t.text_with_ws) ++ _))
      rw [if_neg h, string_append_assoc]

/-- **C3 counterexample.** With an inference collaborator returning no
candidates, the sole misspelled token has no entry in the ranking result;
the assembly loop of `__call__` then raises `KeyError` (modelled as `none`)
instead of passing the token through unchanged. -/
theorem call_keyError_on_missing_ranking_entry :
    callPipeline [] "[MASK]" (fun _ => []) docZ = none ∧
      misspellIdentify [] docZ =
        ([mkTok 0 "zzzz" ""], docZ) := by
  constructor
  · decide
  · decide

/-- **C3 (amended).** The assembly loop of `__call__` walks the tokens in
original order and branches on membership of the token's index among the
misspelled tokens' indices (not on presence in the ranking result): provided
every token whose index is misspelled has an entry in the ranking result, it
emits that entry's replacement followed by the token's original trailing
whitespace, and emits every other token's original text with original
trailing whitespace unchanged; but a misspelled token with no ranking entry
makes the loop fail with `KeyError` rather than passing the token through. -/
theorem assemble_replaces_and_passes_through (misspellIdx : List Nat)
    (answer : List (Token × String)) (tokens : List Token)
    (hcov : ∀ t ∈ tokens, t.i ∈ misspellIdx → (dictGet? t answer).isSome = true) :
    assembleAux misspellIdx answer tokens "" =
      some ("" ++ renderTokens
        (fun t => if t.i ∈ misspellIdx then (dictGet? t answer).getD "" ++ t.whitespace
          else t.text_with_ws) tokens) ∧
    ∀ (t : Token) (rest : List Token) (acc : String),
      t.i ∈ misspellIdx → dictGet? t answer = none →
      assembleAux misspellIdx answer (t :: rest) acc = none := by
  constructor
  · exact assembleAux_spec misspellIdx answer tokens "" hcov
  · intro t rest acc hm hn
    rw [assembleAux_cons, if_pos hm, hn]

/-- Witness for `assemble_replaces_and_passes_through` at a concrete token
sequence (one corrected token, one passed through). -/
theorem assemble_replaces_and_passes_through_witness :
    (∀ t ∈ [mkTok 0 "wrld" " ", mkTok 1 "ok" ""], t.i ∈ [0] →
      (dictGet? t [(mkTok 0 "wrld" " ", "world")]).isSome = true) ∧
    (assembleAux [0] [(mkTok 0 "wrld" " ", "world")]
        [mkTok 0 "wrld" " ", mkTok 1 "ok" ""] "" =
      some ("" ++ renderTokens
        (fun t => if t.i ∈ [0] then
          (dictGet? t [(mkTok 0 "wrld" " ", "world")]).getD "" ++ t.whitespace
          else t.text_with_ws) [mkTok 0 "wrld" " ", mkTok 1 "ok" ""]) ∧
    ∀ (t : Token) (rest : List Token) (acc : String),
      t.i ∈ [0] → dictGet? t [(mkTok 0 "wrld" " ", "world")] = none →
      assembleAux [0] [(mkTok 0 "wrld" " ", "world")] (t :: rest) acc = none) :=
  ⟨by decide,
    assemble_replaces_and_passes_through [0] [(mkTok 0 "wrld" " ", "world")]
      [mkTok 0 "wrld" " ", mkTok 1 "ok" ""] (by decide)⟩

/-- **C6.** When identification finds no misspelled token, `__call__`
short-circuits: candidate generation (and hence the inference collaborator)
is never invoked, no ranking or assembly is performed, and the doc is
returned unchanged, its outcome staying at the default empty string and its
performed-spell-check flag staying false. -/
theorem callPipeline_short_circuit (vocab : List String) (mask : String)
    (predict : String → List (String × ℚ)) (doc : Doc)
    (h : doc.tokens.filter (isMisspelled vocab) = [])
    (h2 : doc.outcome_spellCheck = "") (h3 : doc.performed_spellCheck = false) :
    callPipeline vocab mask predict doc = some (doc, false) ∧
    ∀ (d : Doc) (b : Bool), callPipeline vocab mask predict doc = some (d, b) →
      b = false ∧ d.outcome_spellCheck = "" ∧ d.performed_spellCheck = false ∧
        d.score_spellCheck = doc.score_spellCheck := by
  have hmain : callPipeline vocab mask predict doc = some (doc, false) := by
    simp [callPipeline, misspellIdentify, h]
  refine ⟨hmain, ?_⟩
  intro d b hd
  rw [hmain] at hd
  injection hd with hd
  injection hd with hd1 hd2
  subst hd1; subst hd2
  exact ⟨rfl, h2, h3, rfl⟩

/-- Witness for `callPipeline_short_circuit` at a concrete document whose
only token is in vocabulary. -/
theorem callPipeline_short_circuit_witness :
    (({ tokens := [mkTok 0 "Hello" ""] } : Doc).tokens.filter (isMisspelled ["hello"]) = [] ∧
      ({ tokens := [mkTok 0 "Hello" ""] } : Doc).outcome_spellCheck = "" ∧
      ({ tokens := [mkTok 0 "Hello" ""] } : Doc).performed_spellCheck = false) ∧
    (callPipeline ["hello"] "[MASK]" (fun _ => []) { tokens := [mkTok 0 "Hello" ""] } =
        some ({ tokens := [mkTok 0 "Hello" ""] }, false) ∧
      ∀ (d : Doc) (b : Bool),
        callPipeline ["hello"] "[MASK]" (fun _ => []) { tokens := [mkTok 0 "Hello" ""] } =
          some (d, b) →
        b = false ∧ d.outcome_spellCheck = "" ∧ d.performed_spellCheck = false ∧
          d.score_spellCheck = ({ tokens := [mkTok 0 "Hello" ""] } : Doc).score_spellCheck) :=
  ⟨⟨by decide, by decide, by decide⟩,
    callPipeline_short_circuit ["hello"] "[MASK]" (fun _ => [])
      { tokens := [mkTok 0 "Hello" ""] } (by decide) (by decide) (by decide)⟩

theorem cgLoop_cons (mask : String) (predict : String → List (String × ℚ)) (doc : Doc)
    (token : Token) (rest : List Token) (response : List (Token × List String))
    (score : List (Token × List (String × ℚ))) :
    cgLoop mask predict doc (token :: rest) response score =
      if dictContains token response then cgLoop mask predict doc rest response score
      else cgLoop mask predict doc rest
        (response ++ [(token, (predict (maskedQuery mask doc token)).map Prod.fst)])
        (score ++ [(token, predict (maskedQuery mask doc token))]) := rfl

theorem cgLoop_score_keys (mask : String) (predict : String → List (String × ℚ))
    (doc : Doc) :
    ∀ (ms : List Token) (response : List (Token × List String))
      (score : List (Token × List (String × ℚ))),
      response.map Prod.fst = score.map Prod.fst →
      ∀ t : Token,
        (t ∈ (cgLoop mask predict doc ms response score).2.map Prod.fst ↔
          t ∈ score.map Prod.fst ∨ t ∈ ms) := by
  intro ms
  induction ms with
  | nil => intro r s hk t; simp [cgLoop]
  | cons token rest ih =>
    intro r s hk t
    rw [cgLoop_cons]
    by_cases hc : dictContains token r = true
    · rw [if_pos hc]
      have htok : token ∈ s.map Prod.fst := hk ▸ (dictContains_iff token r).mp hc
      rw [ih r s hk t]
      constructor
      · rintro (h | h)
        · exact Or.inl h
        · exact Or.inr (List.mem_cons_of_mem _ h)
      · rintro (h | h)
        · exact Or.inl h
        · rcases List.mem_cons.mp h with rfl | h
          · exact Or.inl htok
          · exact Or.inr h
    · rw [if_neg hc]
      have hk' : (r ++ [(token, (predict (maskedQuery mask doc token)).map Prod.fst)]).map
            Prod.fst =
          (s ++ [(token, predict (maskedQuery mask doc token))]).map Prod.fst := by
        simp [hk]
      rw [ih _ _ hk' t]
      simp only [List.map_append, List.mem_append, List.map_cons, List.map_nil,
        List.mem_singleton, List.mem_cons]
      tauto

theorem cgLoop_score_values (mask : String) (predict : String → List (String × ℚ))
    (doc : Doc) :
    ∀ (ms : List Token) (response : List (Token × List String))
      (score : List (Token × List (String × ℚ))),
      (∀ e ∈ score, e.2 = predict (maskedQuery mask doc e.1)) →
      ∀ e ∈ (cgLoop mask predict doc ms response score).2,
        e.2 = predict (maskedQuery mask doc e.1) := by
  intro ms
  induction ms with
  | nil => intro r s hs e he; exact hs e he
  | cons token rest ih =>
    intro r s hs e he
    rw [cgLoop_cons] at he
    by_cases hc : dictContains token r = true
    · rw [if_pos hc] at he; exact ih r s hs e he
    · rw [if_neg hc] at he
      refine ih _ _ ?_ e he
      intro e' he'
      rcases List.mem_append.mp he' with h | h
      · exact hs e' h
      · rcases List.mem_singleton.mp h with rfl
        rfl

/-- **C7.** Called with a non-empty misspelling list, `candidateGenerator`
sets the doc's performed-spell-check flag and stores a score map whose keys
are exactly the misspelled tokens, each mapped to the collaborator's
predictions for that token's masked query, regardless of what ranking later
does with them; called with the empty list, it returns the doc untouched. -/
theorem candidateGenerator_frame (mask : String) (predict : String → List (String × ℚ))
    (doc : Doc) (ms : List Token) (h : ms ≠ []) :
    (candidateGenerator mask predict doc ms).2.performed_spellCheck = true ∧
    (∃ s, (candidateGenerator mask predict doc ms).2.score_spellCheck = some s ∧
      (∀ t : Token, t ∈ s.map Prod.fst ↔ t ∈ ms) ∧
      ∀ e ∈ s, e.2 = predict (maskedQuery mask doc e.1)) ∧
    (candidateGenerator mask predict doc []).2 = doc := by
  have hlen : ms.length ≠ 0 := fun h0 => h (List.length_eq_zero.mp h0)
  refine ⟨by simp [candidateGenerator, hlen], ?_, by simp [candidateGenerator]⟩
  refine ⟨(cgLoop mask predict doc ms [] []).2, by simp [candidateGenerator, hlen], ?_, ?_⟩
  · intro t
    have := cgLoop_score_keys mask predict doc ms [] [] rfl t
    simpa using this
  · exact cgLoop_score_values mask predict doc ms [] [] (by simp)

/-- Witness for `candidateGenerator_frame` at a one-token misspelling list. -/
theorem candidateGenerator_frame_witness :
    ([mkTok 0 "wrld" ""] ≠ ([] : List Token)) ∧
    ((candidateGenerator "[MASK]" (fun q => [(q, 1)]) docZ [mkTok 0 "wrld" ""]).2.performed_spellCheck = true ∧
      (∃ s, (candidateGenerator "[MASK]" (fun q => [(q, 1)]) docZ
          [mkTok 0 "wrld" ""]).2.score_spellCheck = some s ∧
        (∀ t : Token, t ∈ s.map Prod.fst ↔ t ∈ [mkTok 0 "wrld" ""]) ∧
        ∀ e ∈ s, e.2 = (fun q => [(q, (1 : ℚ))]) (maskedQuery "[MASK]" docZ e.1)) ∧
      (candidateGenerator "[MASK]" (fun q => [(q, 1)]) docZ []).2 = docZ) :=
  ⟨by decide,
    candidateGenerator_frame "[MASK]" (fun q => [(q, 1)]) docZ [mkTok 0 "wrld" ""]
      (by decide)⟩

/-- **C8 (code bug).** `check`'s guard is `type(query) != str and len(query) == 0`;
for the empty string the first conjunct is false, so no invalid-input result
is surfaced: the guard passes, a run is attempted (the tokenizer and the
identification stage execute), and with the tokenizer's empty doc for the
empty string `check` returns a normal `("", doc)` result.  Only an empty
non-string makes the guard fire.  The claim (and the guard's own error
message, "expected non empty `str`") requires the empty string to be
rejected with no run attempted. -/
theorem check_empty_string_runs (vocab : List String) (mask : String)
    (predict : String → List (String × ℚ)) (nlp : String → Doc) :
    checkGuard (PyQuery.str "") = false ∧
    (check vocab mask predict nlp (PyQuery.str "")).2 = true ∧
    (check vocab mask predict (fun _ => emptyDoc) (PyQuery.str "")).1 =
      CheckResult.ok "" emptyDoc ∧
    checkGuard (PyQuery.other 0) = true := by
  refine ⟨rfl, ?_, rfl, rfl⟩
  show (check vocab mask predict nlp (PyQuery.str "")).2 = true
  unfold check
  rw [if_neg (by decide : ¬checkGuard (PyQuery.str "") = true)]
  dsimp only
  by_cases hlen : (misspellIdentify vocab (nlp "")).1.length > 0
  · rw [if_pos hlen]
    cases checkAssembleAux (misspellIdentify vocab (nlp "")).1
      (candidateRanking (candidateGenerator mask predict
        (misspellIdentify vocab (nlp "")).2 (misspellIdentify vocab (nlp "")).1).1)
      (candidateGenerator mask predict (misspellIdentify vocab (nlp "")).2
        (misspellIdentify vocab (nlp "")).1).2.tokens "" <;> rfl
  · rw [if_neg hlen]

theorem dictGet?_append_fresh {α : Type} (k : Token) (v : α) (l : List (Token × α))
    (h : k ∉ l.map Prod.fst) : dictGet? k (l ++ [(k, v)]) = some v := by
  induction l with
  | nil => simp [dictGet?]
  | cons hd rest ih =>
    simp only [List.map_cons, List.mem_cons, not_or] at h
    have hne : ¬hd.1 = k := fun he => h.1 he.symm
    show dictGet? k (hd :: (rest ++ [(k, v)])) = some v
    simp [dictGet?, hne, ih h.2]

theorem dictSet_append_pin {α : Type} (k : Token) (v w : α) (l : List (Token × α))
    (h : k ∉ l.map Prod.fst) : dictSet k w (l ++ [(k, v)]) = l ++ [(k, w)] := by
  induction l with
  | nil => simp [dictSet]
  | cons hd rest ih =>
    simp only [List.map_cons, List.mem_cons, not_or] at h
    have hne : ¬hd.1 = k := fun he => h.1 he.symm
    show dictSet k w (hd :: (rest ++ [(k, v)])) = hd :: (rest ++ [(k, w)])
    simp [dictSet, hne, ih h.2]

theorem suggestionsFold (token : Token) (pairs : List (String × ℚ)) :
    ∀ (response : List (Token × List String)) (l : List String),
      token ∉ response.map Prod.fst →
      pairs.foldl (fun r p =>
        match dictGet? token r with
        | some l' => dictSet token (l' ++ [p.1]) r
        | none => r) (response ++ [(token, l)]) =
        response ++ [(token, l ++ pairs.map Prod.fst)] := by
  induction pairs with
  | nil => intro response l _; simp
  | cons p rest ih =>
    intro response l h
    rw [List.foldl_cons]
    have hstep : (match dictGet? token (response ++ [(token, l)]) with
        | some l' => dictSet token (l' ++ [p.1]) (response ++ [(token, l)])
        | none => response ++ [(token, l)]) = response ++ [(token, l ++ [p.1])] := by
      rw [dictGet?_append_fresh token l response h]
      exact dictSet_append_pin token l (l ++ [p.1]) response h
    rw [hstep, ih response (l ++ [p.1]) h]
    simp

theorem suggestionsLoop_cons (token : Token) (pairs : List (String × ℚ))
    (rest : List (Token × List (String × ℚ))) (response : List (Token × List String)) :
    suggestionsLoop ((token, pairs) :: rest) response =
      suggestionsLoop rest
        (pairs.foldl (fun r p =>
          match dictGet? token r with
          | some l => dictSet token (l ++ [p.1]) r
          | none => r)
          (if dictContains token response then response else response ++ [(token, [])])) :=
  rfl

theorem suggestionsLoop_spec :
    ∀ (score : List (Token × List (String × ℚ))) (response : List (Token × List String)),
      (score.map Prod.fst).Nodup →
      (∀ k ∈ score.map Prod.fst, k ∉ response.map Prod.fst) →
      suggestionsLoop score response =
        response ++ score.map (fun e => (e.1, e.2.map Prod.fst)) := by
  intro score
  induction score with
  | nil => intro response _ _; simp [suggestionsLoop]
  | cons hd rest ih =>
    obtain ⟨token, pairs⟩ := hd
    intro response hn hdisj
    simp only [List.map_cons, List.nodup_cons] at hn
    have hfresh : token ∉ response.map Prod.fst := hdisj token (by simp)
    rw [suggestionsLoop_cons,
      if_neg (fun hc => hfresh ((dictContains_iff token response).mp hc)),
      suggestionsFold token pairs response [] hfresh]
    have hdisj' : ∀ k ∈ rest.map Prod.fst,
        k ∉ (response ++ [(token, [] ++ pairs.map Prod.fst)]).map Prod.fst := by
      intro k hk
      simp only [List.map_append, List.mem_append, List.map_cons, List.map_nil,
        List.mem_singleton, not_or]
      exact ⟨hdisj k (by simp [hk]), fun he => hn.1 (he ▸ hk)⟩
    rw [ih (response ++ [(token, [] ++ pairs.map Prod.fst)]) hn.2 hdisj']
    simp

/-- **C9.** The derived suggestion map equals the stored score map with the
scores dropped: same token keys in the same order, each value the list of
candidate strings of that token's (string, probability) pairs in the same
order; and for any doc with the score map unset the suggestion map is
empty. -/
theorem doc_suggestions_drops_scores (doc : Doc)
    (score : List (Token × List (String × ℚ)))
    (hs : doc.score_spellCheck = some score)
    (hn : (score.map Prod.fst).Nodup) :
    doc_suggestions_spellCheck doc = score.map (fun e => (e.1, e.2.map Prod.fst)) ∧
    ∀ d : Doc, d.score_spellCheck = none → doc_suggestions_spellCheck d = [] := by
  constructor
  · unfold doc_suggestions_spellCheck
    rw [hs]
    have := suggestionsLoop_spec score [] hn (by simp)
    simpa using this
  · intro d hd
    unfold doc_suggestions_spellCheck
    rw [hd]

/-- Witness for `doc_suggestions_drops_scores` at a concrete stored score
map. -/
theorem doc_suggestions_drops_scores_witness :
    (({ tokens := [], score_spellCheck :=
          some [(mkTok 0 "milion" " ", [("million", 9/10)])] } : Doc).score_spellCheck =
        some [(mkTok 0 "milion" " ", [("million", 9/10)])] ∧
      (([(mkTok 0 "milion" " ", [("million", (9 : ℚ)/10)])].map Prod.fst).Nodup)) ∧
    (doc_suggestions_spellCheck
        { tokens := [], score_spellCheck :=
            some [(mkTok 0 "milion" " ", [("million", 9/10)])] } =
        [(mkTok 0 "milion" " ", [("million", (9 : ℚ)/10)])].map
          (fun e => (e.1, e.2.map Prod.fst)) ∧
      ∀ d : Doc, d.score_spellCheck = none → doc_suggestions_spellCheck d = []) :=
  ⟨⟨rfl, by decide⟩,
    doc_suggestions_drops_scores
      { tokens := [], score_spellCheck :=
          some [(mkTok 0 "milion" " ", [("million", 9/10)])] }
      [(mkTok 0 "milion" " ", [("million", 9/10)])] rfl (by decide)⟩
